import Mathlib

/-!
Verification of the book-master document-to-report pipeline
(`src/backend/main.py`) against its natural-language specification.

Texts are modelled as `List Char`.  Python functions are translated
directly: `str.split('\n\n')` becomes `splitPar`, `str.strip()` becomes
`pstrip`, the character-slicing loops become `forceSplitAux`/`slices`,
and `split_into_chunks` is a fold over the paragraph list with the same
buffer/flush logic as the source.  The streaming generators are modelled
as functions from an environment (remote-call outcomes, completion
order, reduce-stream fragments, write failures) to the list of emitted
events plus the performed side effects.
-/

namespace BookMaster

/-- Text is a list of characters. -/
abbrev Str := List Char

/-- Coerce a Lean string literal to our text type. -/
def s2l (s : String) : Str := s.data

/-- The whitespace characters recognised by Python `str.strip()` with
no argument, i.e. the characters on which `str.isspace()` holds:
U+0009-U+000D, U+001C-U+001F, the space, U+0085 (NEL), U+00A0 (NBSP),
U+1680, U+2000-U+200A, U+2028, U+2029, U+202F, U+205F and U+3000. -/
def pyws (c : Char) : Bool :=
  (0x09 ≤ c.toNat && c.toNat ≤ 0x0D) ||
  (0x1C ≤ c.toNat && c.toNat ≤ 0x1F) ||
  c.toNat = 0x20 || c.toNat = 0x85 || c.toNat = 0xA0 || c.toNat = 0x1680 ||
  (0x2000 ≤ c.toNat && c.toNat ≤ 0x200A) ||
  c.toNat = 0x2028 || c.toNat = 0x2029 || c.toNat = 0x202F ||
  c.toNat = 0x205F || c.toNat = 0x3000

/-- Python `str.lstrip()`. -/
def lstrip (l : Str) : Str := l.dropWhile pyws

/-- Python `str.rstrip()`. -/
def rstrip (l : Str) : Str := (l.reverse.dropWhile pyws).reverse

/-- Python `str.strip()`: remove leading and trailing whitespace. -/
def pstrip (l : Str) : Str := lstrip (rstrip l)

/-- The non-whitespace characters of a text, in order.  Reconstruction
"modulo paragraph-join whitespace" is stated as equality of these. -/
def nonws (l : Str) : Str := l.filter (fun c => !pyws c)

/-- Helper for `splitPar`: prepend a character to the first paragraph. -/
def consHead (c : Char) : List Str → List Str
  | [] => [[c]]
  | p :: ps => (c :: p) :: ps

/-- Python `text.split('\n\n')`: greedy left-to-right split on the
two-character separator; the empty text yields one empty paragraph. -/
def splitPar : Str → List Str
  | [] => [[]]
  | '\n' :: '\n' :: rest => [] :: splitPar rest
  | c :: rest => consHead c (splitPar rest)

/-- Python `for i in range(0, len(l), sz): l[i:i+sz]`, with explicit
recursion fuel (one unit per slice suffices since each slice with
`sz > 0` consumes at least one character). -/
def forceSplitAux (sz : Nat) : Nat → Str → List Str
  | 0, _ => []
  | _, [] => []
  | fuel + 1, l => l.take sz :: forceSplitAux sz fuel (l.drop sz)

/-- Slice a text into pieces of at most `sz` characters
(`range(0, len(l), sz)` in the source; used by the force-split of
oversized paragraphs and by the cached-content replay loop). -/
def slices (sz : Nat) (l : Str) : List Str := forceSplitAux sz l.length l

/-- State of the chunk-accumulation loop in `split_into_chunks`:
the chunks emitted so far and the running paragraph buffer. -/
structure ChunkSt where
  chunks : List Str
  current : Str

/-- `if current_chunk.strip(): chunks.append(current_chunk.strip())`. -/
def flushCurrent (st : ChunkSt) : List Str :=
  if pstrip st.current = [] then st.chunks else st.chunks ++ [pstrip st.current]

/-- One iteration of the paragraph loop of `split_into_chunks`. -/
def stepPara (L : Nat) (st : ChunkSt) (para : Str) : ChunkSt :=
  if st.current.length + para.length + 2 ≤ L then
    { st with current := st.current ++ para ++ ['\n', '\n'] }
  else if L < para.length then
    { chunks := flushCurrent st ++ slices L para, current := [] }
  else
    { chunks := flushCurrent st, current := para ++ ['\n', '\n'] }

/-- `split_into_chunks(text, chunk_size)` from `src/backend/main.py`:
split on blank lines, accumulate paragraphs into a buffer flushed when
the next paragraph would overflow, force-slice oversized paragraphs,
flush the trailing buffer. -/
def split_into_chunks (text : Str) (L : Nat) : List Str :=
  flushCurrent ((splitPar text).foldl (stepPara L) ⟨[], []⟩)

/-- One sub-unit (a PDF page or an EPUB item) of a parsed document:
either its extracted text or a parse failure (a raised exception). -/
abbrev Subunit := Except Unit Str

/-- The text a sub-unit would contribute if failures were isolated. -/
def subunitText : Subunit → Str
  | Except.ok t => t
  | Except.error _ => []

/-- The accumulation loop of `extract_text_from_any`: `text` grows per
sub-unit; a raising sub-unit escapes the loop to the surrounding
document-level `except`, which returns the text accumulated so far. -/
def extractLoop : List Subunit → Str → Str
  | [], acc => acc
  | Except.ok t :: rest, acc => extractLoop rest (acc ++ t)
  | Except.error _ :: _, acc => acc

/-- `extract_text_from_any` from `src/backend/main.py`, over the
sequence of sub-unit outcomes of the parsed document.  The single
`try`/`except` wraps the whole per-sub-unit loop. -/
def extract_text_from_any (units : List Subunit) : Str :=
  extractLoop units []

/-- The extractor the spec describes: every failing sub-unit
contributes empty text and the remaining sub-units are still read.
Stated from the spec's words, to be compared with the source's
`extract_text_from_any`. -/
def specExtract (units : List Subunit) : Str :=
  (units.map subunitText).flatten

/-! ## Event-stream model of the analyze endpoint -/

/-- The classified error kinds of the four `except` handlers of
`generate_stream`: `httpx.ConnectError`, the timeout family,
`httpx.RequestError`, and the catch-all `except Exception`. -/
inductive ErrKind
  | connect
  | timeout
  | request
  | generic
deriving DecidableEq

/-- A server-sent event of the analyze stream, by its `type` tag and
payload.  `progress` carries `val` as an `Option` because the
cache-replay progress event has no `val` key. -/
inductive Event
  | filename (name : Str)
  | progress (val : Option Nat) (msg : Str)
  | content (chunk : Str)
  | done (name : Str)
  | error (kind : ErrKind)
deriving DecidableEq

/-- Just the `type` tag of an event. -/
inductive EvType
  | filename
  | progress
  | content
  | done
  | error
deriving DecidableEq

/-- Extract the `type` tag. -/
def evType : Event → EvType
  | Event.filename _ => EvType.filename
  | Event.progress _ _ => EvType.progress
  | Event.content _ => EvType.content
  | Event.done _ => EvType.done
  | Event.error _ => EvType.error

/-- Decimal rendering of a number, for the interpolated messages. -/
def natStr (n : Nat) : Str := (toString n).data

/-- Message of the first progress event. -/
def msgStart : Str := s2l "开始全书解析..."

/-- Message of the post-chunking progress event. -/
def msgSplit (total : Nat) : Str :=
  s2l "全书已分割为 " ++ natStr total ++ s2l " 个片段，开始并发解构（Map-Reduce模式）..."

/-- Message of the per-chunk Map progress events. -/
def mapMsg (completed total : Nat) : Str :=
  s2l "正在解构第" ++ natStr completed ++ s2l "章节（共" ++ natStr total ++ s2l "章节）..."

/-- Message of the pre-Reduce progress event. -/
def msgCombine : Str := s2l "所有片段处理完成，开始全局汇总..."

/-- Message of the periodic generation-progress events. -/
def genMsg (c : Nat) : Str :=
  s2l "正在生成内容...（已生成 " ++ natStr c ++ s2l " 个片段）"

/-- Message of the cache-replay progress event (no percentage). -/
def cacheMsg : Str := s2l "使用缓存结果，快速返回..."

/-- `int((completed_count / total_chunks) * 45) + 35`. -/
def mapProgressVal (completed total : Nat) : Nat := completed * 45 / total + 35

/-- `min(85 + int((chunk_count / 1000) * 10), 95)`. -/
def reduceProgressVal (c : Nat) : Nat := min (85 + c * 10 / 1000) 95

/-- The Map phase (`process_chunk` plus the `asyncio.as_completed`
write-back loop).  `remote i` is the outcome of chunk `i`'s remote
call (`some` dehydrated text, or `none` when the call raised, in which
case `process_chunk` returns the chunk's own source text); `order` is
the completion order; each completion writes its result into the
index-addressed slot of an initially all-`none` array. -/
def mapPhase (remote : Nat → Option Str) (chunks : List Str) (order : List Nat) :
    List (Option Str) :=
  order.foldl
    (fun slots i =>
      slots.set i (some (match remote i with
        | some t => t
        | none => chunks.getD i [])))
    (List.replicate chunks.length none)

/-- The `"\n\n---\n\n"` separator joined between dehydrated chunks. -/
def sepStr : Str := s2l "\n\n---\n\n"

/-- `"\n\n---\n\n".join(dehydrated_chunks)` (slots are all filled when
the completion order covers every index). -/
def joinSep (slots : List (Option Str)) : Str :=
  List.intercalate sepStr (slots.map (fun o => o.getD []))

/-- The events of the Reduce streaming loop: one `content` event per
non-empty fragment (Python truthiness skips empty deltas), and after
every 100th accumulated fragment one `progress` event.  `n` is the
running `chunk_count`. -/
def reduceEvents : List Str → Nat → List Event
  | [], _ => []
  | d :: ds, n =>
    if d = [] then reduceEvents ds n
    else
      Event.content d ::
        ((if (n + 1) % 100 = 0 then
            [Event.progress (some (reduceProgressVal (n + 1))) (genMsg (n + 1))]
          else []) ++ reduceEvents ds (n + 1))

/-- The per-run environment of `generate_stream`: outcomes of the
remote Map calls, their completion order, the fragments delivered by
the Reduce stream, whether the Reduce call raised (and how it was
classified), and whether the two file writes raise `OSError`. -/
structure StreamEnv where
  remote : Nat → Option Str
  order : List Nat
  deltas : List Str
  reduceErr : Option ErrKind
  reportWriteFails : Bool
  cacheWriteFails : Bool

/-- `accumulated_text` after the Reduce loop: the concatenation of the
truthy (non-empty) fragments. -/
def accumulatedText (deltas : List Str) : Str :=
  (deltas.filter (fun d => d ≠ [])).flatten

/-- The observable outcome of one streamed run: the events emitted, the
`(filename, content)` pairs successfully written, whether the
per-run temporary file was removed, how many Map and Reduce remote
calls were issued, and the user content of the Reduce call (if one
was issued). -/
structure RunOut where
  events : List Event
  writes : List (Str × Str)
  tempRemoved : Bool
  mapCalls : Nat
  reduceCalls : Nat
  reduceInput : Option Str
deriving DecidableEq

/-- The tail of the fresh-path run after the Reduce loop: either the
classified error event of the raised exception, or the two writes
followed by the `done` event; a raising write is caught by the
catch-all handler and yields a `generic` error event instead. -/
def streamTail (safe_filename cache_filename : Str) (env : StreamEnv) :
    List Event × List (Str × Str) :=
  match env.reduceErr with
  | some k => ([Event.error k], [])
  | none =>
    if env.reportWriteFails then ([Event.error ErrKind.generic], [])
    else if env.cacheWriteFails then
      ([Event.error ErrKind.generic], [(safe_filename, accumulatedText env.deltas)])
    else
      ([Event.done safe_filename],
        [(safe_filename, accumulatedText env.deltas),
         (cache_filename, accumulatedText env.deltas)])

/-- The fresh-computation generator `generate_stream` of
`src/backend/main.py`: filename event, two fixed progress events,
chunking, one Map call per chunk with a progress event per completion,
a pre-Reduce progress event, one Reduce call re-emitting each fragment
as a `content` event (with periodic progress), then the writes and the
terminal event.  The `finally` clause always removes the temp file. -/
def generate_stream (safe_filename cache_filename book_content : Str)
    (env : StreamEnv) : RunOut :=
  let chunks := split_into_chunks book_content 10000
  let total := chunks.length
  let t := streamTail safe_filename cache_filename env
  { events :=
      Event.filename safe_filename ::
      Event.progress (some 5) msgStart ::
      Event.progress (some 10) (msgSplit total) ::
      ((List.range env.order.length).map
          (fun k => Event.progress (some (mapProgressVal (k + 1) total)) (mapMsg (k + 1) total)) ++
        Event.progress (some 80) msgCombine ::
          (reduceEvents env.deltas 0 ++ t.1)),
    writes := t.2,
    tempRemoved := true,
    mapCalls := total,
    reduceCalls := 1,
    reduceInput := some (joinSep (mapPhase env.remote chunks env.order)) }

/-- The cache-hit generator `generate_cached_stream`: the cached report
is first copied to a freshly named output file, then replayed as
filename event, one progress event (no percentage), one `content`
event per 100-character slice, and the `done` event.  No remote call
is issued and nothing removes the temp file on this path. -/
def generate_cached_stream (safe_filename cached : Str) : RunOut :=
  { events :=
      Event.filename safe_filename ::
      Event.progress none cacheMsg ::
        ((slices 100 cached).map Event.content ++ [Event.done safe_filename]),
    writes := [(safe_filename, cached)],
    tempRemoved := false,
    mapCalls := 0,
    reduceCalls := 0,
    reduceInput := none }

/-- The valid mode selectors (the keys of `PROMPT_TEMPLATES`). -/
def modes : List Str := [s2l "architect", s2l "executor", s2l "disruptor"]

/-- `f"cache_{file_md5}_{prompt_type}.md"` where `file_md5` is the MD5
hex digest of the uploaded bytes; the digest function is a parameter
of the model. -/
def cacheKey (md5hex : Str → Str) (bytes mode : Str) : Str :=
  s2l "cache_" ++ md5hex bytes ++ s2l "_" ++ mode ++ s2l ".md"

/-- The per-run environment of `analyze_book`: the parsed document's
sub-unit outcomes, the timestamped output name generated on the
cache path, the name produced by `generate_filename` on the fresh
path (timestamped, hence environmental), and the stream environment. -/
structure RunEnv where
  units : List Subunit
  timestampName : Str
  freshName : Str
  streamEnv : StreamEnv

/-- The outcome of one call of the analyze endpoint: the streamed run
(or `none` when an `HTTPException` was raised before streaming), the
cache store afterwards, and whether the temp file was removed. -/
structure AnalyzeOut where
  run : Option RunOut
  store : Str → Option Str
  tempRemoved : Bool

/-- The `analyze_book` endpoint of `src/backend/main.py`: stage the
uploaded bytes to a temp file, look the fingerprint up in the cache
(before validating the mode); on a hit, replay the cached report —
leaving the temp file behind; on a miss, validate the mode, extract
the text (rejecting whitespace-only extractions), and run the fresh
pipeline, whose successful completion also stores the report under
the cache key.  The exception paths remove the temp file. -/
def analyze_book (md5hex : Str → Str) (store : Str → Option Str)
    (bytes mode : Str) (env : RunEnv) : AnalyzeOut :=
  let ckey := cacheKey md5hex bytes mode
  match store ckey with
  | some cached =>
    { run := some (generate_cached_stream env.timestampName cached),
      store := store, tempRemoved := false }
  | none =>
    if mode ∈ modes then
      let book_content := extract_text_from_any env.units
      if pstrip book_content = [] then
        { run := none, store := store, tempRemoved := true }
      else
        let out := generate_stream env.freshName ckey book_content env.streamEnv
        let store1 : Str → Option Str :=
          if env.streamEnv.reduceErr = none ∧ env.streamEnv.reportWriteFails = false ∧
              env.streamEnv.cacheWriteFails = false then
            fun k => if k = ckey then some (accumulatedText env.streamEnv.deltas) else store k
          else store
        { run := some out, store := store1, tempRemoved := true }
    else { run := none, store := store, tempRemoved := true }

/-! ## Predicates used to state the claims -/

/-- The `content` payload of an event, if any. -/
def contentOf : Event → Option Str
  | Event.content c => some c
  | _ => none

/-- The concatenation of the `content` fragments of a trace. -/
def contentJoin (evs : List Event) : Str := (evs.filterMap contentOf).flatten

/-- The claimed event-type pattern, stated from the spec's words:
`filename (progress)* (content)+ (done|error)`. -/
def matchesPattern (l : List EvType) : Bool :=
  match l with
  | EvType.filename :: rest =>
    match rest.dropWhile (fun t => t = EvType.progress) with
    | EvType.content :: rest2 =>
      match rest2.dropWhile (fun t => t = EvType.content) with
      | [EvType.done] => true
      | [EvType.error] => true
      | _ => false
    | _ => false
  | _ => false

/-- Tail of the amended pattern: any interleaving of `progress` and
`content`, terminated by exactly one `done` or exactly one `error`. -/
def amendedTail : List EvType → Bool
  | [EvType.done] => true
  | [EvType.error] => true
  | EvType.progress :: rest => amendedTail rest
  | EvType.content :: rest => amendedTail rest
  | _ => false

/-- The amended event-type pattern:
`filename (progress|content)* (done|error)`. -/
def matchesAmended : List EvType → Bool
  | EvType.filename :: rest => amendedTail rest
  | _ => false

/-- A progress event carries a percentage (vacuously true of the other
event types). -/
def progressHasVal : Event → Bool
  | Event.progress none _ => false
  | _ => true

/-- The `val` payload of a progress event, if any. -/
def pvOf : Event → Option Nat
  | Event.progress v _ => v
  | _ => none

/-- The percentages of the progress events of a trace, in order. -/
def progVals (evs : List Event) : List Nat := evs.filterMap pvOf

/-- Is this a `done` event? -/
def isDoneEv : Event → Bool
  | Event.done _ => true
  | _ => false

/-- The invariant that bounds chunk lengths: all emitted chunks fit in
`L` and the stripped buffer fits in `L`. -/
def lenInv (L : Nat) (st : ChunkSt) : Prop :=
  (∀ c ∈ st.chunks, c.length ≤ L) ∧ (pstrip st.current).length ≤ L

/-- Did the sub-unit parse without raising? -/
def okUnit : Subunit → Bool
  | Except.ok _ => true
  | Except.error _ => false

/-- The value `process_chunk` writes into slot `i`. -/
def slotValue (remote : Nat → Option Str) (chunks : List Str) (i : Nat) : Option Str :=
  some (match remote i with
    | some t => t
    | none => chunks.getD i [])

/-- Abbreviation used below: the per-completion Map progress events. -/
def mapProgressEvents (n total : Nat) : List Event :=
  (List.range n).map
    (fun k => Event.progress (some (mapProgressVal (k + 1) total)) (mapMsg (k + 1) total))

/-! ## Concrete environments used by counterexamples and witnesses -/

/-- A run whose Reduce call raises `ConnectError` before any fragment. -/
def c1CexEnv : StreamEnv :=
  { remote := fun _ => none, order := [0], deltas := [],
    reduceErr := some ErrKind.connect, reportWriteFails := false,
    cacheWriteFails := false }

/-- A run that delivers one fragment and then fails the report write. -/
def c6Env : StreamEnv :=
  { remote := fun _ => some (s2l "d"), order := [0], deltas := [s2l "R"],
    reduceErr := none, reportWriteFails := true, cacheWriteFails := false }

/-- A fully successful one-chunk run. -/
def c8Env : StreamEnv :=
  { remote := fun _ => some (s2l "d"), order := [0], deltas := [s2l "r"],
    reduceErr := none, reportWriteFails := false, cacheWriteFails := false }

/-- A fully successful one-chunk run (used for the done-filename claim). -/
def c10Env : StreamEnv :=
  { remote := fun _ => some (s2l "d"), order := [0], deltas := [s2l "R"],
    reduceErr := none, reportWriteFails := false, cacheWriteFails := false }

/-- A stand-in digest function for concrete cache-key computations. -/
def dummyMd5 : Str → Str := fun _ => s2l "d41d8cd98f00b204e9800998ecf8427e"

/-- A cache store holding an entry for `("BYTES", "architect")`. -/
def hitStore : Str → Option Str :=
  fun k => if k = cacheKey dummyMd5 (s2l "BYTES") (s2l "architect") then
    some (s2l "REPORT") else none

/-- A per-request environment for concrete analyze runs. -/
def cexRunEnv : RunEnv :=
  { units := [Except.ok (s2l "hello")], timestampName := s2l "t.md",
    freshName := s2l "f.md", streamEnv := c8Env }

/-- A second stand-in digest function (cache round-trip witness). -/
def rtMd5 : Str → Str := fun _ => s2l "9e107d9d372bb6826bd81d3542a419d6"

/-- The empty cache store. -/
def emptyStore : Str → Option Str := fun _ => none

/-- First-submission environment for the cache round-trip witness. -/
def rtEnv1 : RunEnv :=
  { units := [Except.ok (s2l "hello")], timestampName := s2l "t1.md",
    freshName := s2l "f1.md",
    streamEnv :=
      { remote := fun _ => some (s2l "d"), order := [0],
        deltas := [s2l "REPORT"], reduceErr := none, reportWriteFails := false,
        cacheWriteFails := false } }

/-- Second-submission environment for the cache round-trip witness. -/
def rtEnv2 : RunEnv :=
  { units := [Except.ok (s2l "hello")], timestampName := s2l "t2.md",
    freshName := s2l "f2.md",
    streamEnv :=
      { remote := fun _ => some (s2l "d"), order := [0],
        deltas := [s2l "OTHER"], reduceErr := none, reportWriteFails := false,
        cacheWriteFails := false } }

/-! ## Lemmas: whitespace and stripping -/

theorem nonws_append (a b : Str) : nonws (a ++ b) = nonws a ++ nonws b := by
  unfold nonws
  exact List.filter_append a b

theorem nonws_dropWhile (l : Str) : nonws (l.dropWhile pyws) = nonws l := by
  unfold nonws
  induction l with
  | nil => rfl
  | cons c cs ih =>
    by_cases h : pyws c = true
    · simp [List.dropWhile_cons, h, ih, List.filter_cons]
    · simp [List.dropWhile_cons, h, List.filter_cons]

theorem nonws_reverse (l : Str) : nonws l.reverse = (nonws l).reverse :=
  List.filter_reverse _ _

theorem nonws_rstrip (l : Str) : nonws (rstrip l) = nonws l := by
  unfold rstrip
  rw [nonws_reverse, nonws_dropWhile, nonws_reverse, List.reverse_reverse]

theorem nonws_lstrip (l : Str) : nonws (lstrip l) = nonws l :=
  nonws_dropWhile l

theorem nonws_pstrip (l : Str) : nonws (pstrip l) = nonws l := by
  unfold pstrip
  rw [nonws_lstrip, nonws_rstrip]

theorem nonws_eq_nil_of_all_ws {l : Str} (h : ∀ c ∈ l, pyws c = true) : nonws l = [] := by
  unfold nonws
  rw [List.filter_eq_nil_iff]
  intro c hc
  simp [h c hc]

theorem dropWhile_eq_nil_of_all {l : Str} (h : ∀ c ∈ l, pyws c = true) :
    l.dropWhile pyws = [] := by
  induction l with
  | nil => rfl
  | cons c cs ih =>
    rw [List.dropWhile_cons]
    simp only [h c (List.mem_cons_self c cs)]
    exact ih (fun x hx => h x (List.mem_cons_of_mem _ hx))

theorem pstrip_eq_nil_iff (l : Str) : pstrip l = [] ↔ nonws l = [] := by
  constructor
  · intro h
    have := nonws_pstrip l
    rw [h] at this
    exact this.symm
  · intro h
    have hall : ∀ c ∈ l, pyws c = true := by
      intro c hc
      by_contra hw
      have : c ∈ nonws l := by
        unfold nonws
        rw [List.mem_filter]
        exact ⟨hc, by simp [hw]⟩
      rw [h] at this
      exact absurd this (List.not_mem_nil c)
    have hr : rstrip l = [] := by
      unfold rstrip
      rw [dropWhile_eq_nil_of_all (fun c hc => hall c (List.mem_reverse.mp hc))]
      rfl
    unfold pstrip
    rw [hr]
    rfl

theorem pstrip_length_le (l : Str) : (pstrip l).length ≤ l.length := by
  unfold pstrip lstrip rstrip
  calc ((l.reverse.dropWhile pyws).reverse.dropWhile pyws).length
      ≤ (l.reverse.dropWhile pyws).reverse.length :=
        (List.dropWhile_sublist pyws).length_le
    _ = (l.reverse.dropWhile pyws).length := List.length_reverse _
    _ ≤ l.reverse.length := (List.dropWhile_sublist pyws).length_le
    _ = l.length := List.length_reverse _

theorem rstrip_append_nn (l : Str) : rstrip (l ++ ['\n', '\n']) = rstrip l := by
  unfold rstrip
  rw [List.reverse_append]
  have hnl : pyws '\n' = true := by decide
  simp [List.dropWhile_cons, hnl]

theorem pstrip_append_nn (l : Str) : pstrip (l ++ ['\n', '\n']) = pstrip l := by
  unfold pstrip
  rw [rstrip_append_nn]

/-! ## Lemmas: paragraph splitting and force-slicing -/

theorem flatten_consHead (c : Char) (ps : List Str) :
    (consHead c ps).flatten = c :: ps.flatten := by
  cases ps with
  | nil => rfl
  | cons p rest => rfl

theorem nonws_flatten_splitPar (l : Str) : nonws (splitPar l).flatten = nonws l := by
  induction l using splitPar.induct with
  | case1 => rfl
  | case2 rest ih =>
    rw [splitPar.eq_2, List.flatten_cons, List.nil_append, ih]
    have hnl : pyws '\n' = true := by decide
    simp [nonws, List.filter_cons, hnl]
  | case3 c rest h ih =>
    rw [splitPar.eq_3 c rest h, flatten_consHead]
    unfold nonws at ih ⊢
    rw [List.filter_cons, List.filter_cons, ih]

theorem flatten_forceSplitAux (sz : Nat) (hsz : 0 < sz) :
    ∀ fuel l, l.length ≤ fuel → (forceSplitAux sz fuel l).flatten = l := by
  intro fuel
  induction fuel with
  | zero =>
    intro l hl
    have : l = [] := List.length_eq_zero.mp (Nat.le_zero.mp hl)
    subst this
    rfl
  | succ n ih =>
    intro l hl
    cases l with
    | nil => rfl
    | cons c cs =>
      show ((c :: cs).take sz :: forceSplitAux sz n ((c :: cs).drop sz)).flatten = c :: cs
      rw [List.flatten_cons, ih ((c :: cs).drop sz) ?_, List.take_append_drop]
      have : ((c :: cs).drop sz).length = (c :: cs).length - sz := List.length_drop _ _
      rw [this]
      have hlen : (c :: cs).length ≤ n + 1 := hl
      omega

theorem flatten_slices (sz : Nat) (hsz : 0 < sz) (l : Str) : (slices sz l).flatten = l :=
  flatten_forceSplitAux sz hsz l.length l (Nat.le_refl _)

theorem length_mem_forceSplitAux (sz : Nat) :
    ∀ fuel l c, c ∈ forceSplitAux sz fuel l → c.length ≤ sz := by
  intro fuel
  induction fuel with
  | zero =>
    intro l c hc
    simp only [forceSplitAux] at hc
    exact absurd hc (List.not_mem_nil c)
  | succ n ih =>
    intro l c hc
    cases l with
    | nil =>
      simp only [forceSplitAux] at hc
      exact absurd hc (List.not_mem_nil c)
    | cons x xs =>
      simp only [forceSplitAux] at hc
      rcases List.mem_cons.mp hc with h | h
      · subst h
        exact (List.length_take _ _).le.trans (Nat.min_le_left _ _)
      · exact ih _ c h

theorem length_mem_slices (sz : Nat) (l c : Str) (hc : c ∈ slices sz l) : c.length ≤ sz :=
  length_mem_forceSplitAux sz l.length l c hc

/-! ## Lemmas: the chunk-accumulation loop -/

theorem nonws_flushCurrent (st : ChunkSt) :
    nonws (flushCurrent st).flatten = nonws st.chunks.flatten ++ nonws st.current := by
  unfold flushCurrent
  by_cases h : pstrip st.current = []
  · rw [if_pos h]
    have : nonws st.current = [] := (pstrip_eq_nil_iff st.current).mp h
    rw [this, List.append_nil]
  · rw [if_neg h, List.flatten_append, nonws_append]
    simp [nonws_pstrip]

theorem stepPara_nonws (L : Nat) (hL : 0 < L) (st : ChunkSt) (p : Str) :
    nonws (stepPara L st p).chunks.flatten ++ nonws (stepPara L st p).current =
      (nonws st.chunks.flatten ++ nonws st.current) ++ nonws p := by
  unfold stepPara
  by_cases h1 : st.current.length + p.length + 2 ≤ L
  · rw [if_pos h1]
    simp only
    rw [nonws_append, nonws_append]
    have : nonws ['\n', '\n'] = [] := by decide
    rw [this, List.append_nil, List.append_assoc]
  · rw [if_neg h1]
    by_cases h2 : L < p.length
    · rw [if_pos h2]
      simp only
      rw [List.flatten_append, nonws_append, nonws_flushCurrent, flatten_slices L hL]
      simp [List.append_assoc, nonws]
    · rw [if_neg h2]
      simp only
      rw [nonws_flushCurrent, nonws_append]
      have : nonws ['\n', '\n'] = [] := by decide
      rw [this, List.append_nil, List.append_assoc]

theorem foldl_stepPara_nonws (L : Nat) (hL : 0 < L) :
    ∀ (paras : List Str) (st : ChunkSt),
      nonws (paras.foldl (stepPara L) st).chunks.flatten ++
          nonws (paras.foldl (stepPara L) st).current =
        (nonws st.chunks.flatten ++ nonws st.current) ++ nonws paras.flatten := by
  intro paras
  induction paras with
  | nil => intro st; simp [nonws]
  | cons p ps ih =>
    intro st
    rw [List.foldl_cons, ih (stepPara L st p), stepPara_nonws L hL st p,
      List.flatten_cons, nonws_append, List.append_assoc]

/-- Reconstruction: the chunks of `split_into_chunks`, concatenated in
index order, carry exactly the non-whitespace characters of the input,
in order. -/
theorem split_into_chunks_reconstruct (T : Str) (L : Nat) (hL : 0 < L) :
    nonws (split_into_chunks T L).flatten = nonws T := by
  unfold split_into_chunks
  rw [nonws_flushCurrent, foldl_stepPara_nonws L hL]
  exact nonws_flatten_splitPar T

theorem flushCurrent_len {L : Nat} {st : ChunkSt} (h : lenInv L st) :
    ∀ c ∈ flushCurrent st, c.length ≤ L := by
  intro c hc
  unfold flushCurrent at hc
  by_cases he : pstrip st.current = []
  · rw [if_pos he] at hc
    exact h.1 c hc
  · rw [if_neg he] at hc
    rcases List.mem_append.mp hc with hm | hm
    · exact h.1 c hm
    · rw [List.mem_singleton.mp hm]
      exact h.2

theorem stepPara_lenInv (L : Nat) (st : ChunkSt) (p : Str) (h : lenInv L st) :
    lenInv L (stepPara L st p) := by
  unfold stepPara
  by_cases h1 : st.current.length + p.length + 2 ≤ L
  · rw [if_pos h1]
    refine ⟨h.1, ?_⟩
    calc (pstrip (st.current ++ p ++ ['\n', '\n'])).length
        ≤ (st.current ++ p ++ ['\n', '\n']).length := pstrip_length_le _
      _ = st.current.length + p.length + 2 := by simp [Nat.add_assoc]
      _ ≤ L := h1
  · rw [if_neg h1]
    by_cases h2 : L < p.length
    · rw [if_pos h2]
      refine ⟨?_, by simp [pstrip, lstrip, rstrip]⟩
      intro c hc
      rcases List.mem_append.mp hc with hm | hm
      · exact flushCurrent_len h c hm
      · exact length_mem_slices L p c hm
    · rw [if_neg h2]
      refine ⟨flushCurrent_len h, ?_⟩
      rw [pstrip_append_nn]
      exact (pstrip_length_le p).trans (Nat.le_of_not_lt h2)

theorem foldl_stepPara_lenInv (L : Nat) :
    ∀ (paras : List Str) (st : ChunkSt), lenInv L st →
      lenInv L (paras.foldl (stepPara L) st) := by
  intro paras
  induction paras with
  | nil => intro st h; exact h
  | cons p ps ih =>
    intro st h
    exact ih (stepPara L st p) (stepPara_lenInv L st p h)

/-- Length bound: every chunk produced by `split_into_chunks` has at
most `L` characters (the force-split slices included). -/
theorem split_into_chunks_length (T : Str) (L : Nat) :
    ∀ c ∈ split_into_chunks T L, c.length ≤ L := by
  unfold split_into_chunks
  exact flushCurrent_len
    (foldl_stepPara_lenInv L (splitPar T) ⟨[], []⟩
      ⟨fun c hc => absurd hc (List.not_mem_nil c), by simp [pstrip, lstrip, rstrip]⟩)

/-- Non-emptiness: input with at least one non-whitespace character
yields at least one chunk. -/
theorem split_into_chunks_ne_nil (T : Str) (L : Nat) (hL : 0 < L)
    (hT : nonws T ≠ []) : split_into_chunks T L ≠ [] := by
  intro h
  apply hT
  rw [← split_into_chunks_reconstruct T L hL, h]
  rfl

/-! ## Lemmas: the extractor -/

theorem extractLoop_eq (units : List Subunit) :
    ∀ acc, extractLoop units acc =
      acc ++ ((units.takeWhile okUnit).map subunitText).flatten := by
  induction units with
  | nil => intro acc; simp [extractLoop]
  | cons u rest ih =>
    intro acc
    cases u with
    | ok t =>
      simp only [extractLoop, ih (acc ++ t), List.takeWhile_cons]
      simp [okUnit, subunitText]
    | error e =>
      simp only [extractLoop, List.takeWhile_cons]
      simp [okUnit]

/-- What the source extractor computes: the concatenated texts of the
longest prefix of sub-units that parse without raising. -/
theorem extract_text_eq_front (units : List Subunit) :
    extract_text_from_any units =
      ((units.takeWhile okUnit).map subunitText).flatten := by
  unfold extract_text_from_any
  rw [extractLoop_eq units []]
  rfl

/-! ## Lemmas: the Map phase slot array -/

theorem foldl_set_length {α : Type} (f : Nat → α) :
    ∀ (order : List Nat) (slots : List α),
      (order.foldl (fun s i => s.set i (f i)) slots).length = slots.length := by
  intro order
  induction order with
  | nil => intro slots; rfl
  | cons i rest ih =>
    intro slots
    rw [List.foldl_cons, ih, List.length_set]

theorem foldl_set_getD_not_mem {α : Type} (f : Nat → α) (d : α) :
    ∀ (order : List Nat) (slots : List α) (j : Nat), j ∉ order →
      (order.foldl (fun s i => s.set i (f i)) slots).getD j d = slots.getD j d := by
  intro order
  induction order with
  | nil => intro slots j _; rfl
  | cons i rest ih =>
    intro slots j hj
    rw [List.foldl_cons, ih _ j (fun h => hj (List.mem_cons_of_mem i h)),
      List.getD_eq_getElem?_getD, List.getD_eq_getElem?_getD,
      List.getElem?_set_ne (fun h : i = j => hj (h ▸ List.mem_cons_self i rest))]

theorem foldl_set_getD_mem {α : Type} (f : Nat → α) (d : α) :
    ∀ (order : List Nat) (slots : List α) (j : Nat), j ∈ order → order.Nodup →
      j < slots.length →
      (order.foldl (fun s i => s.set i (f i)) slots).getD j d = f j := by
  intro order
  induction order with
  | nil => intro slots j hj; exact absurd hj (List.not_mem_nil j)
  | cons i rest ih =>
    intro slots j hj hnd hlen
    rw [List.foldl_cons]
    rcases List.mem_cons.mp hj with h | h
    · subst h
      have hnotin : j ∉ rest := (List.nodup_cons.mp hnd).1
      rw [foldl_set_getD_not_mem f d rest _ j hnotin,
        List.getD_eq_getElem?_getD, List.getElem?_set_self hlen]
      rfl
    · exact ih _ j h (List.nodup_cons.mp hnd).2 (by rw [List.length_set]; exact hlen)

theorem mapPhase_eq_foldl (remote : Nat → Option Str) (chunks : List Str)
    (order : List Nat) :
    mapPhase remote chunks order =
      order.foldl (fun s i => s.set i (slotValue remote chunks i))
        (List.replicate chunks.length none) := rfl

/-- Map-phase invariant: when the completion order is a permutation of
the chunk indices, the slot array has exactly one entry per chunk,
in index order, and a failed remote call's slot holds the chunk's
own source text. -/
theorem mapPhase_spec (remote : Nat → Option Str) (chunks : List Str)
    (order : List Nat) (hperm : order.Perm (List.range chunks.length)) :
    (mapPhase remote chunks order).length = chunks.length ∧
      ∀ i, i < chunks.length →
        (mapPhase remote chunks order).getD i none =
          some ((remote i).getD (chunks.getD i [])) := by
  constructor
  · rw [mapPhase_eq_foldl, foldl_set_length, List.length_replicate]
  · intro i hi
    rw [mapPhase_eq_foldl]
    have hmem : i ∈ order := hperm.mem_iff.mpr (List.mem_range.mpr hi)
    have hnd : order.Nodup := hperm.nodup_iff.mpr (List.nodup_range _)
    have := foldl_set_getD_mem (slotValue remote chunks) none order
      (List.replicate chunks.length none) i hmem hnd
      (by rw [List.length_replicate]; exact hi)
    rw [this]
    unfold slotValue
    cases remote i <;> rfl

/-! ## Lemmas: the Reduce event loop -/

theorem reduceEvents_mem (ds : List Str) :
    ∀ n e, e ∈ reduceEvents ds n →
      (∃ c, e = Event.content c) ∨ ∃ v m, e = Event.progress (some v) m := by
  induction ds with
  | nil => intro n e he; simp [reduceEvents] at he
  | cons d rest ih =>
    intro n e he
    unfold reduceEvents at he
    by_cases hd : d = ([] : Str)
    · rw [if_pos hd] at he
      exact ih n e he
    · rw [if_neg hd] at he
      rcases List.mem_cons.mp he with h | h
      · exact Or.inl ⟨d, h⟩
      · rcases List.mem_append.mp h with h2 | h2
        · by_cases hm : (n + 1) % 100 = 0
          · rw [if_pos hm] at h2
            exact Or.inr ⟨_, _, List.mem_singleton.mp h2⟩
          · rw [if_neg hm] at h2
            simp at h2
        · exact ih (n + 1) e h2

theorem reduceEvents_hasVal (ds : List Str) (n : Nat) (e : Event)
    (he : e ∈ reduceEvents ds n) : progressHasVal e = true := by
  rcases reduceEvents_mem ds n e he with ⟨c, h⟩ | ⟨v, m, h⟩ <;> subst h <;> rfl

theorem reduceEvents_no_done (ds : List Str) (n : Nat) (f : Str) :
    Event.done f ∉ reduceEvents ds n := by
  intro h
  rcases reduceEvents_mem ds n _ h with ⟨c, hc⟩ | ⟨v, m, hm⟩
  · exact Event.noConfusion hc
  · exact Event.noConfusion hm

theorem contentJoin_append (a b : List Event) :
    contentJoin (a ++ b) = contentJoin a ++ contentJoin b := by
  unfold contentJoin
  rw [List.filterMap_append, List.flatten_append]

theorem accumulatedText_cons_nil (rest : List Str) :
    accumulatedText (([] : Str) :: rest) = accumulatedText rest := by
  unfold accumulatedText
  congr 1

theorem accumulatedText_cons_ne (d : Str) (rest : List Str) (hd : d ≠ []) :
    accumulatedText (d :: rest) = d ++ accumulatedText rest := by
  unfold accumulatedText
  simp [List.filter_cons, hd]

theorem contentJoin_reduceEvents (ds : List Str) :
    ∀ n, contentJoin (reduceEvents ds n) = accumulatedText ds := by
  induction ds with
  | nil => intro n; rfl
  | cons d rest ih =>
    intro n
    by_cases hd : d = ([] : Str)
    · subst hd
      have h1 : reduceEvents (([] : Str) :: rest) n = reduceEvents rest n := by
        rw [reduceEvents.eq_2, if_pos rfl]
      rw [h1, accumulatedText_cons_nil, ih n]
    · have h1 : reduceEvents (d :: rest) n = Event.content d ::
          ((if (n + 1) % 100 = 0 then
              [Event.progress (some (reduceProgressVal (n + 1))) (genMsg (n + 1))]
            else []) ++ reduceEvents rest (n + 1)) := by
        rw [reduceEvents.eq_2, if_neg hd]
      have h3 : List.filterMap contentOf
          ((if (n + 1) % 100 = 0 then
              [Event.progress (some (reduceProgressVal (n + 1))) (genMsg (n + 1))]
            else []) ++ reduceEvents rest (n + 1)) =
          List.filterMap contentOf (reduceEvents rest (n + 1)) := by
        by_cases hm : (n + 1) % 100 = 0
        · rw [if_pos hm]
          rfl
        · rw [if_neg hm]
          rfl
      rw [h1, accumulatedText_cons_ne d rest hd]
      unfold contentJoin
      rw [List.filterMap_cons]
      simp only [contentOf]
      rw [h3, List.flatten_cons]
      have := ih (n + 1)
      unfold contentJoin at this
      rw [this]

/-! ## Lemmas: the amended event pattern -/

theorem amendedTail_progress (l : List EvType) :
    amendedTail (EvType.progress :: l) = amendedTail l := rfl

theorem amendedTail_content (l : List EvType) :
    amendedTail (EvType.content :: l) = amendedTail l := rfl

theorem amendedTail_append (tys rest : List EvType)
    (h : ∀ t ∈ tys, t = EvType.progress ∨ t = EvType.content) :
    amendedTail (tys ++ rest) = amendedTail rest := by
  induction tys with
  | nil => rfl
  | cons t ts ih =>
    have hts : ∀ x ∈ ts, x = EvType.progress ∨ x = EvType.content :=
      fun x hx => h x (List.mem_cons_of_mem _ hx)
    rcases h t (List.mem_cons_self t ts) with h1 | h1 <;> subst h1
    · rw [List.cons_append, amendedTail_progress, ih hts]
    · rw [List.cons_append, amendedTail_content, ih hts]

theorem reduceEvents_types (ds : List Str) (n : Nat) :
    ∀ t ∈ (reduceEvents ds n).map evType,
      t = EvType.progress ∨ t = EvType.content := by
  intro t ht
  rcases List.mem_map.mp ht with ⟨e, he, rfl⟩
  rcases reduceEvents_mem ds n e he with ⟨c, rfl⟩ | ⟨v, m, rfl⟩
  · exact Or.inr rfl
  · exact Or.inl rfl

theorem streamTail_types (sf ck : Str) (env : StreamEnv) :
    (streamTail sf ck env).1.map evType = [EvType.done] ∨
      (streamTail sf ck env).1.map evType = [EvType.error] := by
  unfold streamTail
  cases env.reduceErr with
  | some k => exact Or.inr rfl
  | none =>
    by_cases h1 : env.reportWriteFails <;> by_cases h2 : env.cacheWriteFails <;>
      simp [h1, h2, evType]

theorem matchesAmended_shape (mid last : List EvType)
    (hmid : ∀ t ∈ mid, t = EvType.progress ∨ t = EvType.content)
    (hlast : last = [EvType.done] ∨ last = [EvType.error]) :
    matchesAmended (EvType.filename :: (mid ++ last)) = true := by
  show amendedTail (mid ++ last) = true
  rw [amendedTail_append mid last hmid]
  rcases hlast with h | h <;> subst h <;> rfl

/-! ## Lemmas: progress percentages -/

theorem reduceProgressVal_mono {m m' : Nat} (h : m ≤ m') :
    reduceProgressVal m ≤ reduceProgressVal m' := by
  unfold reduceProgressVal
  exact min_le_min
    (Nat.add_le_add_left (Nat.div_le_div_right (Nat.mul_le_mul_right 10 h)) 85)
    (le_refl 95)

theorem reduceProgressVal_ge (m : Nat) : 85 ≤ reduceProgressVal m :=
  le_min (Nat.le_add_right 85 _) (by omega)

theorem progVals_reduceEvents (ds : List Str) :
    ∀ n, List.Chain' (· ≤ ·) (progVals (reduceEvents ds n)) ∧
      ∀ v ∈ progVals (reduceEvents ds n), reduceProgressVal (n + 1) ≤ v := by
  induction ds with
  | nil =>
    intro n
    refine ⟨List.chain'_nil, ?_⟩
    intro v hv
    simp [progVals, reduceEvents] at hv
  | cons d rest ih =>
    intro n
    by_cases hd : d = ([] : Str)
    · rw [reduceEvents.eq_2, if_pos hd]
      exact ih n
    · rw [reduceEvents.eq_2, if_neg hd]
      by_cases hm : (n + 1) % 100 = 0
      · rw [if_pos hm]
        have hv : progVals (Event.content d ::
            ([Event.progress (some (reduceProgressVal (n + 1))) (genMsg (n + 1))] ++
              reduceEvents rest (n + 1))) =
            reduceProgressVal (n + 1) :: progVals (reduceEvents rest (n + 1)) := rfl
        rw [hv]
        obtain ⟨hc, hb⟩ := ih (n + 1)
        refine ⟨?_, ?_⟩
        · rw [List.chain'_cons']
          refine ⟨?_, hc⟩
          intro y hy
          exact (reduceProgressVal_mono (Nat.le_succ (n + 1))).trans
            (hb y (List.mem_of_mem_head? hy))
        · intro v hv2
          rcases List.mem_cons.mp hv2 with h | h
          · subst h; exact le_refl _
          · exact (reduceProgressVal_mono (Nat.le_succ _)).trans (hb v h)
      · rw [if_neg hm]
        have hv : progVals (Event.content d ::
            (([] : List Event) ++ reduceEvents rest (n + 1))) =
            progVals (reduceEvents rest (n + 1)) := rfl
        rw [hv]
        obtain ⟨hc, hb⟩ := ih (n + 1)
        exact ⟨hc, fun v h => (reduceProgressVal_mono (Nat.le_succ _)).trans (hb v h)⟩

theorem streamTail_progVals (sf ck : Str) (env : StreamEnv) :
    progVals (streamTail sf ck env).1 = [] := by
  unfold streamTail
  cases env.reduceErr with
  | some k => rfl
  | none =>
    by_cases h1 : env.reportWriteFails <;> by_cases h2 : env.cacheWriteFails <;>
      simp [h1, h2, progVals, pvOf]

theorem progVals_append (a b : List Event) :
    progVals (a ++ b) = progVals a ++ progVals b := by
  unfold progVals
  exact List.filterMap_append a b _

theorem mapProgressVal_mono (total : Nat) {k k' : Nat} (h : k ≤ k') :
    mapProgressVal k total ≤ mapProgressVal k' total :=
  Nat.add_le_add_right (Nat.div_le_div_right (Nat.mul_le_mul_right 45 h)) 35

theorem filterMap_some_map {α β : Type} (f : α → β) (l : List α) :
    List.filterMap (fun a => some (f a)) l = l.map f := by
  induction l with
  | nil => rfl
  | cons a rest ih => simp [List.filterMap_cons, ih]

theorem filterMap_none_map {α β γ : Type} (f : α → β) (g : β → Option γ)
    (hg : ∀ a, g (f a) = none) (l : List α) :
    List.filterMap g (l.map f) = [] := by
  induction l with
  | nil => rfl
  | cons a rest ih => simp [List.filterMap_cons, hg a, ih]

theorem chain'_le_map_range (f : Nat → Nat) (hf : ∀ k, f k ≤ f (k + 1)) (n : Nat) :
    List.Chain' (· ≤ ·) ((List.range n).map f) := by
  rw [List.chain'_iff_get]
  intro i hi
  rw [List.length_map, List.length_range] at hi
  simp only [List.get_eq_getElem, List.getElem_map, List.getElem_range]
  exact hf i

/-! ## Lemmas: shape of the fresh-path trace -/

theorem generate_stream_events (sf ck bc : Str) (env : StreamEnv) :
    (generate_stream sf ck bc env).events =
      Event.filename sf ::
        Event.progress (some 5) msgStart ::
        Event.progress (some 10) (msgSplit (split_into_chunks bc 10000).length) ::
        (mapProgressEvents env.order.length (split_into_chunks bc 10000).length ++
          Event.progress (some 80) msgCombine ::
            (reduceEvents env.deltas 0 ++ (streamTail sf ck env).1)) := rfl

theorem streamTail_ne_nil (sf ck : Str) (env : StreamEnv) :
    (streamTail sf ck env).1 ≠ [] := by
  unfold streamTail
  cases env.reduceErr with
  | some k => simp
  | none =>
    by_cases h1 : env.reportWriteFails <;> by_cases h2 : env.cacheWriteFails <;>
      simp [h1, h2]

theorem streamTail_contentMap (sf ck : Str) (env : StreamEnv) :
    List.filterMap contentOf (streamTail sf ck env).1 = [] := by
  unfold streamTail
  cases env.reduceErr with
  | some k => rfl
  | none =>
    by_cases h1 : env.reportWriteFails <;> by_cases h2 : env.cacheWriteFails <;>
      simp [h1, h2, contentOf]

theorem streamTail_hasVal (sf ck : Str) (env : StreamEnv) :
    ∀ e ∈ (streamTail sf ck env).1, progressHasVal e = true := by
  unfold streamTail
  cases env.reduceErr with
  | some k => intro e he; rw [List.mem_singleton.mp he]; rfl
  | none =>
    by_cases h1 : env.reportWriteFails <;> by_cases h2 : env.cacheWriteFails <;>
      simp [h1, h2, progressHasVal]

theorem streamTail_no_done (sf ck : Str) (env : StreamEnv)
    (h : env.reduceErr ≠ none ∨ env.reportWriteFails = true ∨ env.cacheWriteFails = true) :
    ∀ f, Event.done f ∉ (streamTail sf ck env).1 := by
  intro f hf
  unfold streamTail at hf
  cases hre : env.reduceErr with
  | some k => rw [hre] at hf; exact Event.noConfusion (List.mem_singleton.mp hf)
  | none =>
    rw [hre] at hf
    rcases h with h | h | h
    · exact h hre
    · rw [if_pos h] at hf
      exact Event.noConfusion (List.mem_singleton.mp hf)
    · by_cases h1 : env.reportWriteFails
      · rw [if_pos h1] at hf
        exact Event.noConfusion (List.mem_singleton.mp hf)
      · rw [if_neg h1, if_pos h] at hf
        exact Event.noConfusion (List.mem_singleton.mp hf)

theorem mapProgressEvents_mem (n total : Nat) :
    ∀ e ∈ mapProgressEvents n total, ∃ v m, e = Event.progress (some v) m := by
  intro e he
  rcases List.mem_map.mp he with ⟨k, hk, rfl⟩
  exact ⟨_, _, rfl⟩

theorem generate_stream_types (sf ck bc : Str) (env : StreamEnv) :
    (generate_stream sf ck bc env).events.map evType =
      EvType.filename ::
        ((EvType.progress :: EvType.progress ::
          ((mapProgressEvents env.order.length (split_into_chunks bc 10000).length).map evType ++
            EvType.progress :: (reduceEvents env.deltas 0).map evType)) ++
          (streamTail sf ck env).1.map evType) := by
  rw [generate_stream_events]
  simp [evType, List.map_append]

theorem generate_stream_matchesAmended (sf ck bc : Str) (env : StreamEnv) :
    matchesAmended ((generate_stream sf ck bc env).events.map evType) = true := by
  rw [generate_stream_types]
  apply matchesAmended_shape
  · intro t ht
    rcases List.mem_cons.mp ht with rfl | ht
    · exact Or.inl rfl
    rcases List.mem_cons.mp ht with rfl | ht
    · exact Or.inl rfl
    rcases List.mem_append.mp ht with ht | ht
    · rcases List.mem_map.mp ht with ⟨e, he, rfl⟩
      rcases mapProgressEvents_mem _ _ e he with ⟨v, m, rfl⟩
      exact Or.inl rfl
    · rcases List.mem_cons.mp ht with rfl | ht
      · exact Or.inl rfl
      · exact reduceEvents_types env.deltas 0 t ht
  · exact streamTail_types sf ck env

theorem generate_cached_stream_matchesAmended (tn cc : Str) :
    matchesAmended ((generate_cached_stream tn cc).events.map evType) = true := by
  have hshape : (generate_cached_stream tn cc).events.map evType =
      EvType.filename ::
        ((EvType.progress :: (slices 100 cc).map (fun _ => EvType.content)) ++
          [EvType.done]) := by
    unfold generate_cached_stream
    simp [evType, List.map_append, List.map_map, Function.comp_def]
  rw [hshape]
  apply matchesAmended_shape
  · intro t ht
    rcases List.mem_cons.mp ht with rfl | ht
    · exact Or.inl rfl
    · rcases List.mem_map.mp ht with ⟨e, he, rfl⟩
      exact Or.inr rfl
  · exact Or.inl rfl

theorem mapProgressEvents_contentMap (n total : Nat) :
    List.filterMap contentOf (mapProgressEvents n total) = [] := by
  unfold mapProgressEvents
  exact filterMap_none_map
    (fun k => Event.progress (some (mapProgressVal (k + 1) total)) (mapMsg (k + 1) total))
    contentOf (fun k => rfl) (List.range n)

theorem generate_stream_contentJoin (sf ck bc : Str) (env : StreamEnv) :
    contentJoin (generate_stream sf ck bc env).events = accumulatedText env.deltas := by
  rw [generate_stream_events]
  unfold contentJoin
  rw [List.filterMap_cons, List.filterMap_cons, List.filterMap_cons]
  simp only [contentOf]
  rw [List.filterMap_append, List.filterMap_cons]
  simp only [contentOf]
  rw [List.filterMap_append, streamTail_contentMap, mapProgressEvents_contentMap,
    List.nil_append, List.append_nil]
  exact contentJoin_reduceEvents env.deltas 0

theorem generate_cached_stream_contentJoin (tn cc : Str) :
    contentJoin (generate_cached_stream tn cc).events = cc := by
  unfold generate_cached_stream contentJoin
  simp only
  rw [List.filterMap_cons, List.filterMap_cons]
  simp only [contentOf]
  rw [List.filterMap_append]
  have h1 : List.filterMap contentOf ((slices 100 cc).map Event.content) =
      slices 100 cc := by
    rw [show (List.filterMap contentOf ((slices 100 cc).map Event.content)) =
        List.filterMap (fun c => some c) (slices 100 cc) from ?_]
    · rw [filterMap_some_map]
      exact List.map_id _
    · rw [List.filterMap_map]
      rfl
  rw [h1]
  have h2 : List.filterMap contentOf [Event.done tn] = [] := rfl
  rw [h2, List.append_nil]
  exact flatten_slices 100 (by omega) cc

theorem generate_stream_getLast (sf ck bc : Str) (env : StreamEnv) :
    (generate_stream sf ck bc env).events.getLast? =
      (streamTail sf ck env).1.getLast? := by
  rw [generate_stream_events]
  have hsh : Event.filename sf ::
      Event.progress (some 5) msgStart ::
      Event.progress (some 10) (msgSplit (split_into_chunks bc 10000).length) ::
      (mapProgressEvents env.order.length (split_into_chunks bc 10000).length ++
        Event.progress (some 80) msgCombine ::
          (reduceEvents env.deltas 0 ++ (streamTail sf ck env).1)) =
      (Event.filename sf ::
        Event.progress (some 5) msgStart ::
        Event.progress (some 10) (msgSplit (split_into_chunks bc 10000).length) ::
        (mapProgressEvents env.order.length (split_into_chunks bc 10000).length ++
          Event.progress (some 80) msgCombine :: reduceEvents env.deltas 0)) ++
        (streamTail sf ck env).1 := by
    simp [List.append_assoc]
  rw [hsh]
  exact List.getLast?_append_of_ne_nil _ (streamTail_ne_nil sf ck env)

theorem mapProgressEvents_pvMap (n total : Nat) :
    List.filterMap pvOf (mapProgressEvents n total) =
      (List.range n).map (fun k => mapProgressVal (k + 1) total) := by
  unfold mapProgressEvents
  rw [List.filterMap_map]
  have hcomp : pvOf ∘
      (fun k => Event.progress (some (mapProgressVal (k + 1) total)) (mapMsg (k + 1) total)) =
      fun k => some (mapProgressVal (k + 1) total) := rfl
  rw [hcomp, filterMap_some_map]

theorem generate_stream_progVals (sf ck bc : Str) (env : StreamEnv) :
    progVals (generate_stream sf ck bc env).events =
      5 :: 10 :: ((List.range env.order.length).map
          (fun k => mapProgressVal (k + 1) (split_into_chunks bc 10000).length) ++
        80 :: progVals (reduceEvents env.deltas 0)) := by
  rw [generate_stream_events]
  unfold progVals
  rw [List.filterMap_cons, List.filterMap_cons, List.filterMap_cons]
  simp only [pvOf]
  rw [List.filterMap_append, List.filterMap_cons]
  simp only [pvOf]
  rw [List.filterMap_append, mapProgressEvents_pvMap,
    show List.filterMap pvOf (streamTail sf ck env).1 = [] from streamTail_progVals sf ck env,
    List.append_nil]

theorem generate_stream_hasVal (sf ck bc : Str) (env : StreamEnv) :
    ∀ e ∈ (generate_stream sf ck bc env).events, progressHasVal e = true := by
  rw [generate_stream_events]
  intro e he
  rcases List.mem_cons.mp he with rfl | he
  · rfl
  rcases List.mem_cons.mp he with rfl | he
  · rfl
  rcases List.mem_cons.mp he with rfl | he
  · rfl
  rcases List.mem_append.mp he with he | he
  · rcases mapProgressEvents_mem _ _ e he with ⟨v, m, rfl⟩
    rfl
  rcases List.mem_cons.mp he with rfl | he
  · rfl
  rcases List.mem_append.mp he with he | he
  · exact reduceEvents_hasVal _ _ e he
  · exact streamTail_hasVal sf ck env e he

theorem generate_stream_progVals_chain (sf ck bc : Str) (env : StreamEnv)
    (hperm : env.order.Perm (List.range (split_into_chunks bc 10000).length)) :
    List.Chain' (· ≤ ·) (progVals (generate_stream sf ck bc env).events) := by
  rw [generate_stream_progVals]
  have hlen : env.order.length = (split_into_chunks bc 10000).length := by
    rw [hperm.length_eq, List.length_range]
  rw [hlen]
  generalize (split_into_chunks bc 10000).length = total
  obtain ⟨hcR, hbR⟩ := progVals_reduceEvents env.deltas 0
  have hmap : List.Chain' (· ≤ ·)
      ((List.range total).map (fun k => mapProgressVal (k + 1) total)) :=
    chain'_le_map_range _ (fun k => mapProgressVal_mono total (by omega)) total
  have h80 : List.Chain' (· ≤ ·) (80 :: progVals (reduceEvents env.deltas 0)) := by
    rw [List.chain'_cons']
    refine ⟨?_, hcR⟩
    intro y hy
    have h1 : reduceProgressVal 1 ≤ y := hbR y (List.mem_of_mem_head? hy)
    have h2 := reduceProgressVal_ge 1
    omega
  have happ : List.Chain' (· ≤ ·)
      ((List.range total).map (fun k => mapProgressVal (k + 1) total) ++
        80 :: progVals (reduceEvents env.deltas 0)) := by
    apply hmap.append h80
    intro x hx y hy
    have hy80 : 80 = y := by simpa using hy
    subst hy80
    cases total with
    | zero => simp at hx
    | succ m =>
      rw [List.range_succ, List.map_append] at hx
      simp only [List.map_cons, List.map_nil] at hx
      rw [List.getLast?_concat] at hx
      have hx80 : mapProgressVal (m + 1) (m + 1) = x := by simpa using hx
      subst hx80
      unfold mapProgressVal
      have hdiv : (m + 1) * 45 / (m + 1) = 45 :=
        Nat.mul_div_cancel_left 45 (Nat.succ_pos m)
      omega
  have hall : ∀ y ∈ (List.range total).map (fun k => mapProgressVal (k + 1) total) ++
      80 :: progVals (reduceEvents env.deltas 0), 10 ≤ y := by
    intro y hy
    rcases List.mem_append.mp hy with hy | hy
    · rcases List.mem_map.mp hy with ⟨k, hk, rfl⟩
      exact le_trans (by omega) (Nat.le_add_left 35 ((k + 1) * 45 / total))
    · rcases List.mem_cons.mp hy with rfl | hy
      · omega
      · have h1 : reduceProgressVal 1 ≤ y := hbR y hy
        have h2 := reduceProgressVal_ge 1
        omega
  rw [List.chain'_cons']
  refine ⟨?_, ?_⟩
  · intro y hy
    have h10 : 10 = y := by simpa using hy
    omega
  rw [List.chain'_cons']
  exact ⟨fun y hy => hall y (List.mem_of_mem_head? hy), happ⟩

/-! ## Lemmas: shape of the cache-path trace -/

theorem generate_cached_stream_getLast (tn cc : Str) :
    (generate_cached_stream tn cc).events.getLast? = some (Event.done tn) := by
  unfold generate_cached_stream
  simp only
  have hsh : Event.filename tn :: Event.progress none cacheMsg ::
      ((slices 100 cc).map Event.content ++ [Event.done tn]) =
      (Event.filename tn :: Event.progress none cacheMsg ::
        (slices 100 cc).map Event.content) ++ [Event.done tn] := by
    simp
  rw [hsh, List.getLast?_concat]

theorem generate_cached_stream_head (tn cc : Str) :
    (generate_cached_stream tn cc).events.head? = some (Event.filename tn) := rfl

theorem generate_cached_stream_progress_noVal (tn cc : Str) :
    ∀ e ∈ (generate_cached_stream tn cc).events,
      evType e = EvType.progress → e = Event.progress none cacheMsg := by
  intro e he ht
  unfold generate_cached_stream at he
  simp only at he
  rcases List.mem_cons.mp he with rfl | he
  · exact absurd ht (by simp [evType])
  rcases List.mem_cons.mp he with rfl | he
  · rfl
  rcases List.mem_append.mp he with he | he
  · rcases List.mem_map.mp he with ⟨c, hc, rfl⟩
    exact absurd ht (by simp [evType])
  · have : e = Event.done tn := List.mem_singleton.mp he
    subst this
    exact absurd ht (by simp [evType])

theorem generate_stream_no_done_of_fail (sf ck bc : Str) (env : StreamEnv)
    (h : env.reduceErr ≠ none ∨ env.reportWriteFails = true ∨ env.cacheWriteFails = true) :
    ∀ f, Event.done f ∉ (generate_stream sf ck bc env).events := by
  intro f hf
  rw [generate_stream_events] at hf
  rcases List.mem_cons.mp hf with h1 | hf
  · exact Event.noConfusion h1
  rcases List.mem_cons.mp hf with h1 | hf
  · exact Event.noConfusion h1
  rcases List.mem_cons.mp hf with h1 | hf
  · exact Event.noConfusion h1
  rcases List.mem_append.mp hf with hf | hf
  · rcases mapProgressEvents_mem _ _ _ hf with ⟨v, m, hvm⟩
    exact Event.noConfusion hvm
  rcases List.mem_cons.mp hf with h1 | hf
  · exact Event.noConfusion h1
  rcases List.mem_append.mp hf with hf | hf
  · exact reduceEvents_no_done env.deltas 0 f hf
  · exact streamTail_no_done sf ck env h f hf

/-! ## Lemmas: the analyze endpoint -/

theorem analyze_book_cache_hit (md5hex : Str → Str) (store : Str → Option Str)
    (bytes mode : Str) (env : RunEnv) (cached : Str)
    (h : store (cacheKey md5hex bytes mode) = some cached) :
    analyze_book md5hex store bytes mode env =
      { run := some (generate_cached_stream env.timestampName cached),
        store := store, tempRemoved := false } := by
  simp only [analyze_book]
  rw [h]

theorem analyze_book_fresh (md5hex : Str → Str) (store : Str → Option Str)
    (bytes mode : Str) (env : RunEnv)
    (h0 : store (cacheKey md5hex bytes mode) = none)
    (hm : mode ∈ modes)
    (hx : pstrip (extract_text_from_any env.units) ≠ []) :
    analyze_book md5hex store bytes mode env =
      { run := some (generate_stream env.freshName (cacheKey md5hex bytes mode)
          (extract_text_from_any env.units) env.streamEnv),
        store := if env.streamEnv.reduceErr = none ∧
            env.streamEnv.reportWriteFails = false ∧
            env.streamEnv.cacheWriteFails = false then
          fun k => if k = cacheKey md5hex bytes mode then
            some (accumulatedText env.streamEnv.deltas) else store k
          else store,
        tempRemoved := true } := by
  simp only [analyze_book]
  rw [h0, if_pos hm, if_neg hx]

/-! ## The claims -/

/-- C1 counterexample: a run whose Reduce call raises before any
fragment emits `filename progress* error` with no content event, so the
claimed pattern `filename (progress)* (content)+ (done|error)` fails. -/
theorem event_pattern_counterexample :
    matchesPattern (((generate_stream (s2l "o.md") (s2l "c.md") (s2l "hello")
      c1CexEnv).events).map evType) = false := by decide

/-- C1 amended: every run's event-type sequence matches
`filename (progress|content)* (done|error)` — the filename event is
first, progress and content events may interleave (the source emits a
progress event after every 100th content fragment), the run ends with
exactly one terminal event, and done and error are mutually exclusive;
on the error path content events may be absent.  Holds on both the
fresh and the cache-replay paths. -/
theorem event_pattern_amended :
    (∀ sf ck bc env,
      matchesAmended (((generate_stream sf ck bc env).events).map evType) = true) ∧
    ∀ tn cc,
      matchesAmended (((generate_cached_stream tn cc).events).map evType) = true :=
  ⟨fun sf ck bc env => generate_stream_matchesAmended sf ck bc env,
   fun tn cc => generate_cached_stream_matchesAmended tn cc⟩

/-- C2: for every chunk sequence handed to the Map phase and every
completion order covering each chunk index exactly once, the slot array
has exactly one entry per chunk, in index order, each slot filled —
with the chunk's own source text verbatim when its remote call
failed — so the Reduce input is a complete, order-preserving sequence. -/
theorem map_phase_complete (remote : Nat → Option Str) (chunks : List Str)
    (order : List Nat) (hperm : order.Perm (List.range chunks.length)) :
    (mapPhase remote chunks order).length = chunks.length ∧
      ∀ i, i < chunks.length →
        (mapPhase remote chunks order).getD i none =
          some ((remote i).getD (chunks.getD i [])) :=
  mapPhase_spec remote chunks order hperm

theorem map_phase_complete_witness :
    ([1, 0] : List Nat).Perm (List.range 2) ∧
      (mapPhase (fun i => if i = 0 then none else some (s2l "X"))
        [s2l "a", s2l "b"] [1, 0]).getD 0 none = some (s2l "a") :=
  ⟨by decide,
    ((map_phase_complete (fun i => if i = 0 then none else some (s2l "X"))
      [s2l "a", s2l "b"] [1, 0] (by decide)).2 0 (by decide)).trans (by decide)⟩

/-- C3: a second submission of the same (bytes, mode) pair after a
fully successful first run takes the cache path: its streamed content
fragments concatenate to exactly the report the first run persisted
(which the first run wrote under its fresh filename), and the second
run issues zero Map and zero Reduce remote calls. -/
theorem cache_round_trip (md5hex : Str → Str) (store : Str → Option Str)
    (bytes mode : Str) (env1 env2 : RunEnv)
    (h0 : store (cacheKey md5hex bytes mode) = none)
    (hm : mode ∈ modes)
    (hx : pstrip (extract_text_from_any env1.units) ≠ [])
    (hr : env1.streamEnv.reduceErr = none)
    (hw1 : env1.streamEnv.reportWriteFails = false)
    (hw2 : env1.streamEnv.cacheWriteFails = false) :
    (analyze_book md5hex store bytes mode env1).run =
      some (generate_stream env1.freshName (cacheKey md5hex bytes mode)
        (extract_text_from_any env1.units) env1.streamEnv) ∧
    (analyze_book md5hex (analyze_book md5hex store bytes mode env1).store
        bytes mode env2).run =
      some (generate_cached_stream env2.timestampName
        (accumulatedText env1.streamEnv.deltas)) ∧
    contentJoin (generate_cached_stream env2.timestampName
        (accumulatedText env1.streamEnv.deltas)).events =
      contentJoin (generate_stream env1.freshName (cacheKey md5hex bytes mode)
        (extract_text_from_any env1.units) env1.streamEnv).events ∧
    (env1.freshName,
        contentJoin (generate_stream env1.freshName (cacheKey md5hex bytes mode)
          (extract_text_from_any env1.units) env1.streamEnv).events) ∈
      (generate_stream env1.freshName (cacheKey md5hex bytes mode)
        (extract_text_from_any env1.units) env1.streamEnv).writes ∧
    (generate_cached_stream env2.timestampName
      (accumulatedText env1.streamEnv.deltas)).mapCalls = 0 ∧
    (generate_cached_stream env2.timestampName
      (accumulatedText env1.streamEnv.deltas)).reduceCalls = 0 := by
  have hfresh := analyze_book_fresh md5hex store bytes mode env1 h0 hm hx
  have hstore1 : (analyze_book md5hex store bytes mode env1).store
      (cacheKey md5hex bytes mode) =
      some (accumulatedText env1.streamEnv.deltas) := by
    rw [hfresh]
    simp only
    rw [if_pos ⟨hr, hw1, hw2⟩, if_pos rfl]
  refine ⟨?_, ?_, ?_, ?_, rfl, rfl⟩
  · rw [hfresh]
  · rw [analyze_book_cache_hit md5hex _ bytes mode env2 _ hstore1]
  · rw [generate_cached_stream_contentJoin, generate_stream_contentJoin]
  · rw [generate_stream_contentJoin]
    have hwr : (generate_stream env1.freshName (cacheKey md5hex bytes mode)
        (extract_text_from_any env1.units) env1.streamEnv).writes =
        [(env1.freshName, accumulatedText env1.streamEnv.deltas),
         (cacheKey md5hex bytes mode, accumulatedText env1.streamEnv.deltas)] := by
      show (streamTail env1.freshName (cacheKey md5hex bytes mode) env1.streamEnv).2 = _
      unfold streamTail
      rw [hr, if_neg (by simp [hw1]), if_neg (by simp [hw2])]
    rw [hwr]
    exact List.mem_cons_self _ _

theorem cache_round_trip_witness :
    (emptyStore (cacheKey rtMd5 (s2l "B") (s2l "architect")) = none ∧
      s2l "architect" ∈ modes ∧
      pstrip (extract_text_from_any rtEnv1.units) ≠ []) ∧
    (analyze_book rtMd5 (analyze_book rtMd5 emptyStore (s2l "B") (s2l "architect")
        rtEnv1).store (s2l "B") (s2l "architect") rtEnv2).run =
      some (generate_cached_stream rtEnv2.timestampName
        (accumulatedText rtEnv1.streamEnv.deltas)) :=
  ⟨⟨rfl, by decide, by decide⟩,
   (cache_round_trip rtMd5 emptyStore (s2l "B") (s2l "architect") rtEnv1 rtEnv2
     rfl (by decide) (by decide) rfl rfl rfl).2.1⟩

/-- C4: for every text `T` and limit `L > 0`, the chunks of
`split_into_chunks T L` concatenated in index order reconstruct `T`
modulo paragraph-join whitespace (the non-whitespace characters agree,
each appearing exactly once, in order), and every chunk's length is at
most `L` — force-split slices included, so in particular at most `L`
unless force-split. -/
theorem chunker_reconstruction_and_bound (T : Str) (L : Nat) (hL : 0 < L) :
    nonws (split_into_chunks T L).flatten = nonws T ∧
      ∀ c ∈ split_into_chunks T L, c.length ≤ L :=
  ⟨split_into_chunks_reconstruct T L hL, split_into_chunks_length T L⟩

theorem chunker_reconstruction_and_bound_witness :
    0 < 5 ∧ nonws (split_into_chunks (s2l "ab\n\ncd") 5).flatten =
      nonws (s2l "ab\n\ncd") :=
  ⟨by decide, (chunker_reconstruction_and_bound (s2l "ab\n\ncd") 5 (by decide)).1⟩

/-- C5 counterexample: with sub-units `[ok "a", error, ok "b"]` the
source extractor returns `"a"` — the failing sub-unit aborts the
remaining sub-units instead of contributing empty text only. -/
theorem extractor_isolation_counterexample :
    extract_text_from_any [Except.ok (s2l "a"), Except.error (), Except.ok (s2l "b")] ≠
      specExtract [Except.ok (s2l "a"), Except.error (), Except.ok (s2l "b")] := by
  decide

/-- C5 amended: extraction never raises past the boundary (the model is
total), but a sub-unit parse failure truncates: the result is the
concatenated text of the longest error-free prefix of sub-units, and
the remaining sub-units are not read. -/
theorem extractor_prefix_amended (units : List Subunit) :
    extract_text_from_any units =
      ((units.takeWhile okUnit).map subunitText).flatten :=
  extract_text_eq_front units

/-- C6 counterexample: all content delivered, then the report write
fails — the run emits no done event at all and terminates with a
generic error event, conflating persistence failure with generation
failure. -/
theorem persistence_counterexample :
    ((generate_stream (s2l "o.md") (s2l "c.md") (s2l "hi") c6Env).events.any
      isDoneEv) = false ∧
    (generate_stream (s2l "o.md") (s2l "c.md") (s2l "hi") c6Env).events.getLast? =
      some (Event.error ErrKind.generic) := by decide

/-- C6 amended: if writing the final report or the cache entry fails
after the Reduce stream completed, the run terminates with a generic
terminal error event — the same channel as generation failure — and
emits no done event; the content fragments delivered are exactly the
accumulated report. -/
theorem persistence_amended (sf ck bc : Str) (env : StreamEnv)
    (hr : env.reduceErr = none)
    (hw : env.reportWriteFails = true ∨ env.cacheWriteFails = true) :
    (generate_stream sf ck bc env).events.getLast? =
      some (Event.error ErrKind.generic) ∧
    (∀ f, Event.done f ∉ (generate_stream sf ck bc env).events) ∧
    contentJoin (generate_stream sf ck bc env).events =
      accumulatedText env.deltas := by
  refine ⟨?_, generate_stream_no_done_of_fail sf ck bc env (Or.inr hw),
    generate_stream_contentJoin sf ck bc env⟩
  rw [generate_stream_getLast]
  unfold streamTail
  rw [hr]
  rcases hw with hw | hw
  · rw [if_pos hw]
    rfl
  · by_cases h1 : env.reportWriteFails
    · rw [if_pos h1]
      rfl
    · rw [if_neg h1, if_pos hw]
      rfl

theorem persistence_amended_witness :
    (c6Env.reduceErr = none ∧
      (c6Env.reportWriteFails = true ∨ c6Env.cacheWriteFails = true)) ∧
    (generate_stream (s2l "o.md") (s2l "c.md") (s2l "hi") c6Env).events.getLast? =
      some (Event.error ErrKind.generic) :=
  ⟨⟨rfl, Or.inl rfl⟩,
   (persistence_amended (s2l "o.md") (s2l "c.md") (s2l "hi") c6Env rfl (Or.inl rfl)).1⟩

/-- C7 counterexample: on the cache-hit short-circuit path the staged
temp file is never removed. -/
theorem temp_cleanup_counterexample :
    (analyze_book dummyMd5 hitStore (s2l "BYTES") (s2l "architect")
      cexRunEnv).tempRemoved = false := by decide

/-- C7 amended: the temp file is removed on the fresh-computation path
(success and every error path, via the generator finally clause) and on
the pre-stream rejection paths (via the exception handler), but NOT on
the cache-hit short-circuit path, which returns without any cleanup. -/
theorem temp_cleanup_amended :
    (∀ md5hex store bytes mode env, store (cacheKey md5hex bytes mode) = none →
      (analyze_book md5hex store bytes mode env).tempRemoved = true) ∧
    ∀ md5hex store bytes mode env cached,
      store (cacheKey md5hex bytes mode) = some cached →
      (analyze_book md5hex store bytes mode env).tempRemoved = false := by
  constructor
  · intro md5hex store bytes mode env h0
    simp only [analyze_book]
    rw [h0]
    by_cases hm : mode ∈ modes
    · rw [if_pos hm]
      by_cases hx : pstrip (extract_text_from_any env.units) = []
      · rw [if_pos hx]
      · rw [if_neg hx]
    · rw [if_neg hm]
  · intro md5hex store bytes mode env cached h
    rw [analyze_book_cache_hit md5hex store bytes mode env cached h]

theorem temp_cleanup_amended_witness :
    hitStore (cacheKey dummyMd5 (s2l "BYTES") (s2l "architect")) =
      some (s2l "REPORT") ∧
    (analyze_book dummyMd5 hitStore (s2l "BYTES") (s2l "architect")
      cexRunEnv).tempRemoved = false :=
  ⟨by decide,
   temp_cleanup_amended.2 dummyMd5 hitStore (s2l "BYTES") (s2l "architect")
     cexRunEnv (s2l "REPORT") (by decide)⟩

/-- C8 counterexample: the cache-path progress event carries no
percentage value, refuting "every progress event carries a percentage"
on the cache-hit path. -/
theorem progress_val_counterexample :
    ((generate_cached_stream (s2l "o.md") (s2l "r")).events.all
      progressHasVal) = false := by decide

/-- C8 amended: on the fresh path every progress event carries a
percentage and, when the Map completion order covers each chunk index
exactly once, the percentages over the whole run are monotonically
non-decreasing; the cache path's only progress event carries no
percentage at all. -/
theorem progress_val_amended :
    (∀ sf ck bc env, ∀ e ∈ (generate_stream sf ck bc env).events,
      progressHasVal e = true) ∧
    (∀ sf ck bc env,
      env.order.Perm (List.range (split_into_chunks bc 10000).length) →
      List.Chain' (· ≤ ·) (progVals (generate_stream sf ck bc env).events)) ∧
    ∀ tn cc e, e ∈ (generate_cached_stream tn cc).events →
      evType e = EvType.progress → e = Event.progress none cacheMsg :=
  ⟨fun sf ck bc env => generate_stream_hasVal sf ck bc env,
   fun sf ck bc env hperm => generate_stream_progVals_chain sf ck bc env hperm,
   fun tn cc e he ht => generate_cached_stream_progress_noVal tn cc e he ht⟩

theorem progress_val_amended_witness :
    ([0] : List Nat).Perm (List.range (split_into_chunks (s2l "hi") 10000).length) ∧
    List.Chain' (· ≤ ·)
      (progVals (generate_stream (s2l "o.md") (s2l "c.md") (s2l "hi") c8Env).events) :=
  ⟨by decide,
   progress_val_amended.2.1 (s2l "o.md") (s2l "c.md") (s2l "hi") c8Env (by decide)⟩

/-- C9 counterexample: the single-space text is non-empty, yet
`split_into_chunks` returns no chunks: the `strip()` truthiness check
drops the whitespace-only buffer. -/
theorem chunker_nonempty_counterexample :
    s2l " " ≠ [] ∧ split_into_chunks (s2l " ") 10000 = [] := by decide

/-- C9 amended: for every input text containing at least one
non-whitespace character and every limit `L > 0`, `split_into_chunks`
returns a non-empty chunk sequence. -/
theorem chunker_nonempty_amended (T : Str) (L : Nat) (hL : 0 < L)
    (hT : nonws T ≠ []) : split_into_chunks T L ≠ [] :=
  split_into_chunks_ne_nil T L hL hT

theorem chunker_nonempty_amended_witness :
    (0 < 10000 ∧ nonws (s2l "hi") ≠ []) ∧
      split_into_chunks (s2l "hi") 10000 ≠ [] :=
  ⟨⟨by decide, by decide⟩,
   chunker_nonempty_amended (s2l "hi") 10000 (by decide) (by decide)⟩

/-- C10: in every run that terminates with done — a fresh run whose
Reduce stream and both writes succeed, or any cache-hit run — the done
event's filename equals the initial filename event's filename, and the
full report (the concatenation of the run's content fragments) is
written under exactly that filename. -/
theorem done_filename_consistent :
    (∀ sf ck bc env, env.reduceErr = none → env.reportWriteFails = false →
      env.cacheWriteFails = false →
      (generate_stream sf ck bc env).events.head? = some (Event.filename sf) ∧
      (generate_stream sf ck bc env).events.getLast? = some (Event.done sf) ∧
      (sf, contentJoin (generate_stream sf ck bc env).events) ∈
        (generate_stream sf ck bc env).writes) ∧
    ∀ tn cc,
      (generate_cached_stream tn cc).events.head? = some (Event.filename tn) ∧
      (generate_cached_stream tn cc).events.getLast? = some (Event.done tn) ∧
      (tn, contentJoin (generate_cached_stream tn cc).events) ∈
        (generate_cached_stream tn cc).writes := by
  constructor
  · intro sf ck bc env hr hw1 hw2
    refine ⟨rfl, ?_, ?_⟩
    · rw [generate_stream_getLast]
      unfold streamTail
      rw [hr, if_neg (by simp [hw1]), if_neg (by simp [hw2])]
      rfl
    · rw [generate_stream_contentJoin]
      have hwr : (generate_stream sf ck bc env).writes =
          [(sf, accumulatedText env.deltas), (ck, accumulatedText env.deltas)] := by
        show (streamTail sf ck env).2 = _
        unfold streamTail
        rw [hr, if_neg (by simp [hw1]), if_neg (by simp [hw2])]
      rw [hwr]
      exact List.mem_cons_self _ _
  · intro tn cc
    refine ⟨generate_cached_stream_head tn cc, generate_cached_stream_getLast tn cc, ?_⟩
    rw [generate_cached_stream_contentJoin]
    exact List.mem_singleton.mpr rfl

theorem done_filename_consistent_witness :
    (c10Env.reduceErr = none ∧ c10Env.reportWriteFails = false ∧
      c10Env.cacheWriteFails = false) ∧
    (generate_stream (s2l "o.md") (s2l "c.md") (s2l "hi") c10Env).events.getLast? =
      some (Event.done (s2l "o.md")) :=
  ⟨⟨rfl, rfl, rfl⟩,
   (done_filename_consistent.1 (s2l "o.md") (s2l "c.md") (s2l "hi") c10Env
     rfl rfl rfl).2.1⟩

end BookMaster
